import Mathlib

/-!
Shallow embedding of the `Factorised` distribution module
(`src/distributions/factorised.py`).

Modelling conventions:
* A tensor value is considered through its trailing (event) axis, modelled as a
  `List ℚ`; the numeric element type is idealised as `ℚ` so that every
  definition is executable and decidable on concrete inputs.
* A component distribution (a "factor") is opaque: it is a record of the
  capabilities the composite consumes.  Its `logProb` and `supportCheck` act on
  the factor's slice of the trailing axis and return `none` to model a raised
  exception inside the factor (e.g. a shape error of the underlying tensor
  library); `rsample` returns a full `Tensor` (shape plus flattened contents),
  mirroring the shape contract of the sampling call.
* Python `IndexError`s raised by the constructor and by indexing
  `self.factors[i]` are modelled by `Except FactError`.
* Python slicing `value[..., :n]` / `value[..., n:]` clamps out-of-range
  bounds, exactly like `List.take` / `List.drop`.
-/

/-- Result of a sampling call: a shape together with flattened contents. -/
structure Tensor where
  shape : List ℕ
  data : List ℚ
deriving DecidableEq

/-- A component distribution, modelled through the capabilities that the
`Factorised` composite consumes from it. -/
structure Factor where
  batch_shape : List ℕ
  event_shape : List ℕ
  logProb : List ℚ → Option ℚ
  supportCheck : List ℚ → Option Bool
  rsample : List ℕ → Tensor
  has_rsample : Bool

instance : Inhabited Factor :=
  ⟨⟨[], [], fun _ => none, fun _ => none, fun _ => ⟨[], []⟩, false⟩⟩

/-- Embedding of `_iterate_parts(value, ndims)`: successively split off a
clamped prefix of each requested width from the trailing axis. -/
def iterateParts : List ℚ → List ℕ → List (List ℚ)
  | _, [] => []
  | value, n :: ns => value.take n :: iterateParts (value.drop n) ns

/-- Short-circuiting conjunction over fallible boolean checks, embedding
Python's `all(...)` over a generator in which a check may raise (`none`). -/
def allChecks : List (Option Bool) → Option Bool
  | [] => some true
  | none :: _ => none
  | some false :: _ => some false
  | some true :: rest => allChecks rest

/-- Embedding of the `_FactorisedSupport` constraint object. -/
structure FactorisedSupport where
  supports : List (List ℚ → Option Bool)
  ndims : List ℕ

/-- Embedding of `_FactorisedSupport.check`. -/
def FactorisedSupport.check (s : FactorisedSupport) (value : List ℚ) : Option Bool :=
  allChecks ((s.supports.zip (iterateParts value s.ndims)).map (fun p => p.1 p.2))

/-- Python exceptions raised by the embedded operations, by raise site. -/
inductive FactError where
  /-- `IndexError` from `factors[0].batch_shape` on an empty factor list. -/
  | emptyFactors
  /-- `IndexError` from `factor.event_shape[0]` on an empty event shape. -/
  | emptyEventShape
  /-- `IndexError` from `self.factors[i]` with an out-of-range index. -/
  | factorIndex
deriving DecidableEq

/-- Embedding of the `Factorised` distribution object: the constructor-time
state (factor list, derived shapes, cached per-factor widths `_ndims`). -/
structure Factorised where
  factors : List Factor
  batch_shape : List ℕ
  event_shape : List ℕ
  ndims : List ℕ

/-- Embedding of `Factorised.__init__`: derive `batch_shape` from the first
factor, `event_shape` as the summed first event dimension, and cache `_ndims`
(the per-factor widths).  Both `factors[0].batch_shape` on an empty sequence
and `factor.event_shape[0]` on an empty event shape raise `IndexError`. -/
def Factorised.init (factors : List Factor) : Except FactError Factorised :=
  match factors with
  | [] => .error .emptyFactors
  | f0 :: _ =>
    if factors.all (fun f => !f.event_shape.isEmpty) then
      .ok { factors := factors
            batch_shape := f0.batch_shape
            event_shape := [(factors.map (fun f => f.event_shape.headD 0)).sum]
            ndims := factors.map (fun f =>
              if f.event_shape.length > 0 then f.event_shape.headD 0 else 1) }
    else .error .emptyEventShape

/-- Embedding of Python's `sum(...)` over a generator of per-factor results in
which an element may raise (`none`): the empty sum is `0`, and a raise
propagates (no partial result). -/
def sumOptions : List (Option ℚ) → Option ℚ
  | [] => some 0
  | o :: rest => do
      let x ← o
      let s ← sumOptions rest
      pure (x + s)

/-- Embedding of `Factorised.partition_dimensions`. -/
def Factorised.partition_dimensions (d : Factorised) (data : List ℚ) : List (List ℚ) :=
  iterateParts data d.ndims

/-- Embedding of `Factorised.log_prob`: sum each factor's log-density over the
partition of the value's trailing axis. -/
def Factorised.log_prob (d : Factorised) (value : List ℚ) : Option ℚ :=
  sumOptions ((d.factors.zip (d.partition_dimensions value)).map
    (fun p => p.1.logProb p.2))

/-- Embedding of the `Factorised.support` property. -/
def Factorised.support (d : Factorised) : FactorisedSupport :=
  ⟨d.factors.map Factor.supportCheck, d.ndims⟩

/-- Size of the trailing dimension of a shape (`0` for a scalar shape). -/
def lastDim (s : List ℕ) : ℕ :=
  s.getLast?.getD 0

/-- Split flattened contents into `k` consecutive chunks of size `d`. -/
def chunksOf (d : ℕ) : ℕ → List ℚ → List (List ℚ)
  | 0, _ => []
  | k + 1, xs => xs.take d :: chunksOf d k (xs.drop d)

/-- Embedding of `torch.cat(tensors, dim=-1)`: requires a non-empty list of
tensors of equal leading shape; the result keeps the leading shape, its
trailing dimension is the sum of the inputs' trailing dimensions, and each
leading-index group concatenates the inputs' groups in input order. -/
def catLastDim (ts : List Tensor) : Option Tensor :=
  match ts with
  | [] => none
  | t0 :: rest =>
    if (!t0.shape.isEmpty) &&
        rest.all (fun t => !t.shape.isEmpty && t.shape.dropLast == t0.shape.dropLast) then
      let lead := t0.shape.dropLast
      let m := lead.prod
      let chunkLists := ts.map (fun t => chunksOf (lastDim t.shape) m t.data)
      some { shape := lead ++ [(ts.map (fun t => lastDim t.shape)).sum]
             data := ((List.range m).map
               (fun g => (chunkLists.map (fun cl => cl.getD g [])).flatten)).flatten }
    else none

/-- Embedding of `Factorised.rsample`: draw from each factor and concatenate
along the trailing axis, in factor order. -/
def Factorised.rsample (d : Factorised) (sample_shape : List ℕ) : Option Tensor :=
  catLastDim (d.factors.map (fun f => f.rsample sample_shape))

/-- Embedding of `Factorised.marginal`: select `self.factors[i]` for each
index in order (an out-of-range index raises `IndexError`) and hand the
selection to the constructor. -/
def Factorised.marginal (d : Factorised) (factor_indices : List ℕ) :
    Except FactError Factorised :=
  match factor_indices.mapM (fun i => d.factors.get? i) with
  | none => .error .factorIndex
  | some selected => Factorised.init selected

/-- Embedding of `_kl_factorised_factorised`, parametrised by the generic
per-pair divergence dispatcher `kl` (which returns `none` when the dispatch
on a pair of factors raises). -/
def kl_factorised_factorised (kl : Factor → Factor → Option ℚ)
    (p q : Factorised) : Option ℚ :=
  sumOptions ((p.factors.zip q.factors).map (fun pq => kl pq.1 pq.2))

/-- The slice of `v` belonging to factor `i`: drop the widths of the earlier
factors, then take this factor's width (clamped, like Python slicing). -/
def sliceAt (v : List ℚ) (ws : List ℕ) (i : ℕ) : List ℚ :=
  (v.drop ((ws.take i).sum)).take (ws.getD i 0)

/-! ## Basic lemmas about the partition of the trailing axis -/

theorem length_iterateParts (v : List ℚ) (ws : List ℕ) :
    (iterateParts v ws).length = ws.length := by
  induction ws generalizing v with
  | nil => rfl
  | cons w ws ih => simp [iterateParts, ih]

theorem getD_iterateParts (v : List ℚ) (ws : List ℕ) (i : ℕ) (h : i < ws.length) :
    (iterateParts v ws).getD i [] = sliceAt v ws i := by
  induction ws generalizing v i with
  | nil => simp at h
  | cons w ws ih =>
    cases i with
    | zero => simp [iterateParts, sliceAt]
    | succ i =>
      have h' : i < ws.length := by simpa using h
      simp only [iterateParts, List.getD_cons_succ]
      rw [ih _ _ h']
      simp [sliceAt, List.drop_drop, Nat.add_comm]

theorem flatten_iterateParts (v : List ℚ) (ws : List ℕ) :
    (iterateParts v ws).flatten = v.take ws.sum := by
  induction ws generalizing v with
  | nil => simp [iterateParts]
  | cons w ws ih =>
    simp only [iterateParts, List.flatten_cons, ih, List.sum_cons]
    rw [List.take_add]

theorem map_length_iterateParts (v : List ℚ) (ws : List ℕ) (h : ws.sum ≤ v.length) :
    (iterateParts v ws).map List.length = ws := by
  induction ws generalizing v with
  | nil => rfl
  | cons w ws ih =>
    rw [List.sum_cons] at h
    have h2 : ws.sum ≤ (v.drop w).length := by
      rw [List.length_drop]; omega
    simp only [iterateParts, List.map_cons, ih _ h2, List.length_take]
    congr 1
    omega

theorem sum_map_length_iterateParts (v : List ℚ) (ws : List ℕ) :
    ((iterateParts v ws).map List.length).sum = min v.length ws.sum := by
  induction ws generalizing v with
  | nil => simp [iterateParts]
  | cons w ws ih =>
    simp only [iterateParts, List.map_cons, List.sum_cons, ih, List.length_take,
      List.length_drop, List.sum_cons]
    omega

theorem length_sliceAt (v : List ℚ) (ws : List ℕ) (i : ℕ) :
    (sliceAt v ws i).length = min (ws.getD i 0) (v.length - (ws.take i).sum) := by
  simp [sliceAt, List.length_take, List.length_drop]

theorem sum_take_getD (ws : List ℕ) (i : ℕ) (h : i < ws.length) :
    (ws.take (i + 1)).sum = (ws.take i).sum + ws.getD i 0 := by
  induction ws generalizing i with
  | nil => simp at h
  | cons w ws ih =>
    cases i with
    | zero => simp
    | succ i =>
      have h' : i < ws.length := by simpa using h
      simp only [List.take_succ_cons, List.sum_cons, List.getD_cons_succ, ih _ h']
      omega

theorem sum_take_le (ws : List ℕ) (i : ℕ) : (ws.take i).sum ≤ ws.sum := by
  conv_rhs => rw [← List.take_append_drop i ws]
  rw [List.sum_append]
  exact Nat.le_add_right _ _

theorem sliceAt_full_iff (v : List ℚ) (ws : List ℕ) :
    (∀ i, i < ws.length → (sliceAt v ws i).length = ws.getD i 0) ↔ ws.sum ≤ v.length := by
  constructor
  · intro hall
    have key : ∀ i, i ≤ ws.length → (ws.take i).sum ≤ v.length := by
      intro i
      induction i with
      | zero => intro _; simp
      | succ i ih =>
        intro hi
        have hi' : i < ws.length := by omega
        have h1 := hall i hi'
        rw [length_sliceAt] at h1
        have h2 := ih (by omega)
        rw [sum_take_getD ws i hi']
        omega
    have hfin := key ws.length (le_refl _)
    rwa [List.take_length] at hfin
  · intro hle i hi
    rw [length_sliceAt]
    have h1 : (ws.take i).sum + ws.getD i 0 ≤ ws.sum := by
      rw [← sum_take_getD ws i hi]
      exact sum_take_le ws (i + 1)
    omega

/-! ## Lemmas about fallible sums and conjunctions -/

theorem sumOptions_eq_none_iff (l : List (Option ℚ)) :
    sumOptions l = none ↔ none ∈ l := by
  induction l with
  | nil => simp [sumOptions]
  | cons o rest ih =>
    cases o with
    | none => simp [sumOptions]
    | some x =>
      cases h : sumOptions rest with
      | none => simp [sumOptions, h, ih.mp h]
      | some s =>
        have : none ∉ rest := fun hmem => by
          rw [ih.mpr hmem] at h; exact Option.noConfusion h
        simp [sumOptions, h, this]

theorem sumOptions_isSome_iff (l : List (Option ℚ)) :
    (sumOptions l).isSome ↔ ∀ o ∈ l, o.isSome := by
  rw [← Option.ne_none_iff_isSome, ne_eq, sumOptions_eq_none_iff]
  constructor
  · intro h o ho
    rw [← Option.ne_none_iff_isSome]
    intro hnone
    exact h (hnone ▸ ho)
  · intro h hmem
    have := h none hmem
    simp at this

theorem sumOptions_map_some (l : List ℚ) :
    sumOptions (l.map some) = some l.sum := by
  induction l with
  | nil => rfl
  | cons x rest ih => simp [sumOptions, ih]

theorem allChecks_eq_some_true_iff (l : List (Option Bool)) :
    allChecks l = some true ↔ ∀ o ∈ l, o = some true := by
  induction l with
  | nil => simp [allChecks]
  | cons o rest ih =>
    match o with
    | none => simp [allChecks]
    | some false => simp [allChecks]
    | some true => simp [allChecks, ih]

/-! ## Indexed description of zipped per-factor computations -/

theorem zip_map_eq_range {α β γ : Type} (g : α → β → γ) (da : α) (db : β) :
    ∀ (as : List α) (bs : List β), as.length = bs.length →
      (as.zip bs).map (fun p => g p.1 p.2) =
        (List.range as.length).map (fun i => g (as.getD i da) (bs.getD i db))
  | [], [], _ => rfl
  | [], _ :: _, h => by simp at h
  | _ :: _, [], h => by simp at h
  | a :: as, b :: bs, h => by
    have h' : as.length = bs.length := by simpa using h
    have ih := zip_map_eq_range g da db as bs h'
    simp only [List.zip_cons_cons, List.map_cons, List.length_cons,
      List.range_succ_eq_map, List.map_map, List.getD_cons_zero]
    refine congrArg (g a b :: ·) ?_
    rw [ih]
    apply List.map_congr_left
    intro i _
    simp [Function.comp]

theorem getD_map_of_lt {α β : Type} (g : α → β) (l : List α) (i : ℕ)
    (h : i < l.length) (d₁ : β) (d₂ : α) :
    (l.map g).getD i d₁ = g (l.getD i d₂) := by
  rw [List.getD_eq_getElem l d₂ h, List.getD_eq_getElem _ d₁ (by simpa using h),
    List.getElem_map]

/-! ## Constructor inversion -/

theorem init_ok (fs : List Factor) (d : Factorised)
    (h : Factorised.init fs = .ok d) :
    d.factors = fs ∧
    d.ndims = fs.map (fun f =>
      if f.event_shape.length > 0 then f.event_shape.headD 0 else 1) ∧
    d.event_shape = [(fs.map (fun f => f.event_shape.headD 0)).sum] ∧
    fs ≠ [] ∧ ∀ f ∈ fs, f.event_shape ≠ [] := by
  match fs with
  | [] => exact absurd h (by simp [Factorised.init])
  | f0 :: rest =>
    by_cases hc : ((f0 :: rest).all (fun f => !f.event_shape.isEmpty)) = true
    · rw [Factorised.init, if_pos hc] at h
      injection h with h2
      subst h2
      refine ⟨rfl, rfl, rfl, by simp, ?_⟩
      intro f hf
      have := (List.all_eq_true.mp hc) f hf
      simpa using this
    · rw [Factorised.init, if_neg hc] at h
      exact absurd h (by simp)

theorem init_ok_of (fs : List Factor) (hne : fs ≠ [])
    (hev : ∀ f ∈ fs, f.event_shape ≠ []) :
    Factorised.init fs = .ok
      { factors := fs
        batch_shape := (fs.headD default).batch_shape
        event_shape := [(fs.map (fun f => f.event_shape.headD 0)).sum]
        ndims := fs.map (fun f =>
          if f.event_shape.length > 0 then f.event_shape.headD 0 else 1) } := by
  match fs with
  | [] => exact absurd rfl hne
  | f0 :: rest =>
    have hc : ((f0 :: rest).all (fun f => !f.event_shape.isEmpty)) = true := by
      rw [List.all_eq_true]
      intro f hf
      simpa using hev f hf
    rw [Factorised.init, if_pos hc]
    rfl

theorem mapM_get_some (l : List Factor) (idxs : List ℕ)
    (h : ∀ i ∈ idxs, i < l.length) :
    idxs.mapM (fun i => l.get? i) =
      some (idxs.map (fun i => l.getD i default)) := by
  induction idxs with
  | nil => rfl
  | cons j js ih =>
    have hj : j < l.length := h j (List.mem_cons_self _ _)
    have hget : l.get? j = some (l.getD j default) := by
      rw [List.getD_eq_getElem l default hj, List.get?_eq_getElem?,
        List.getElem?_eq_getElem hj]
    rw [List.mapM_cons, hget, ih (fun i hi => h i (List.mem_cons_of_mem _ hi))]
    rfl

/-! ## Concrete instances used in witnesses and counterexamples -/

/-- A strict factor of trailing width `w` over batch shape `b`: its log-density
and support check accept exactly the inputs of its own width (modelling a
component distribution whose tensor operations raise on mis-sized slices), and
its sampling call returns a correctly shaped tensor of zeros. -/
def mkFactor (b : List ℕ) (w : ℕ) : Factor :=
  { batch_shape := b
    event_shape := [w]
    logProb := fun xs => if xs.length = w then some 0 else none
    supportCheck := fun xs => if xs.length = w then some true else none
    rsample := fun s => ⟨s ++ b ++ [w], List.replicate ((s ++ b ++ [w]).prod) 0⟩
    has_rsample := true }

/-- The spec's concrete scenario: factor widths 3 and 4, batch size 5. -/
def dEx : Factorised :=
  { factors := [mkFactor [5] 3, mkFactor [5] 4]
    batch_shape := [5]
    event_shape := [7]
    ndims := [3, 4] }

/-- A single-factor instance of width 3, batch size 5. -/
def dEx1 : Factorised :=
  { factors := [mkFactor [5] 3]
    batch_shape := [5]
    event_shape := [3]
    ndims := [3] }

/-- Two scalar-batch factors of width 1 each. -/
def dEx7 : Factorised :=
  { factors := [mkFactor [] 1, mkFactor [] 1]
    batch_shape := []
    event_shape := [2]
    ndims := [1, 1] }

/-- A per-pair divergence dispatcher that succeeds on every pair with value 1. -/
def klOne : Factor → Factor → Option ℚ := fun _ _ => some 1

/-- A per-pair divergence dispatcher that raises on every pair. -/
def klRaise : Factor → Factor → Option ℚ := fun _ _ => none

theorem mkFactor_logProb_isSome (b : List ℕ) (w : ℕ) (xs : List ℚ) :
    ((mkFactor b w).logProb xs).isSome ↔ xs.length = w := by
  by_cases h : xs.length = w <;> simp [mkFactor, h]


/-! ## Claims -/

/-- C1: for every factor sequence accepted by the constructor, the cached
per-factor width of each factor equals its declared event width (its first
event dimension) when the event shape is non-empty and 1 when it is empty,
and the resulting `event_shape` is a single trailing dimension whose size is
the sum of the cached per-factor widths. -/
theorem init_caches_widths_and_event_shape (fs : List Factor) (d : Factorised)
    (hinit : Factorised.init fs = .ok d) :
    d.ndims = fs.map (fun f =>
      if f.event_shape.length > 0 then f.event_shape.headD 0 else 1) ∧
    d.event_shape = [d.ndims.sum] := by
  obtain ⟨_, hnd, hev, _, hforall⟩ := init_ok fs d hinit
  refine ⟨hnd, ?_⟩
  rw [hev, hnd]
  have hmap : fs.map (fun f => f.event_shape.headD 0) =
      fs.map (fun f =>
        if f.event_shape.length > 0 then f.event_shape.headD 0 else 1) := by
    apply List.map_congr_left
    intro f hf
    have : f.event_shape ≠ [] := hforall f hf
    have hlen : f.event_shape.length > 0 := List.length_pos.mpr this
    rw [if_pos hlen]
  rw [hmap]

theorem init_caches_widths_and_event_shape_witness :
    dEx.ndims = [mkFactor [5] 3, mkFactor [5] 4].map (fun f =>
      if f.event_shape.length > 0 then f.event_shape.headD 0 else 1) ∧
    dEx.event_shape = [dEx.ndims.sum] :=
  init_caches_widths_and_event_shape [mkFactor [5] 3, mkFactor [5] 4] dEx rfl

/-- C2: for a Factorised distribution and a value of trailing width equal to
the summed event width, `partition_dimensions` yields one contiguous slice per
factor, in factor order, with the cached per-factor widths, and concatenating
the slices reproduces the value exactly. -/
theorem partition_round_trip (fs : List Factor) (d : Factorised) (v : List ℚ)
    (hinit : Factorised.init fs = .ok d)
    (hv : v.length = d.ndims.sum) :
    (d.partition_dimensions v).length = d.factors.length ∧
    (d.partition_dimensions v).map List.length = d.ndims ∧
    (d.partition_dimensions v).flatten = v := by
  obtain ⟨hf, hnd, _, _, _⟩ := init_ok fs d hinit
  refine ⟨?_, ?_, ?_⟩
  · rw [Factorised.partition_dimensions, length_iterateParts, hf, hnd,
      List.length_map]
  · exact map_length_iterateParts v d.ndims (le_of_eq hv.symm)
  · rw [Factorised.partition_dimensions, flatten_iterateParts, ← hv,
      List.take_length]

theorem partition_round_trip_witness :
    (dEx.partition_dimensions [1, 2, 3, 4, 5, 6, 7]).length = dEx.factors.length ∧
    (dEx.partition_dimensions [1, 2, 3, 4, 5, 6, 7]).map List.length = dEx.ndims ∧
    (dEx.partition_dimensions [1, 2, 3, 4, 5, 6, 7]).flatten = [1, 2, 3, 4, 5, 6, 7] :=
  partition_round_trip [mkFactor [5] 3, mkFactor [5] 4] dEx
    [1, 2, 3, 4, 5, 6, 7] rfl (by decide)

theorem zip_map_pair_eq_range {α β γ : Type} (g : α × β → γ) (da : α) (db : β)
    (as : List α) (bs : List β) (h : as.length = bs.length) :
    (as.zip bs).map g =
      (List.range as.length).map (fun i => g (as.getD i da, bs.getD i db)) := by
  have h2 := zip_map_eq_range (fun a b => g (a, b)) da db as bs h
  simpa using h2

/-- C3: for a Factorised distribution and a value of the correct trailing
width, `log_prob` splits the trailing axis into contiguous prefix slices of
the cached per-factor widths, left to right in factor order, and returns the
sum of each factor's log-density evaluated on its slice. -/
theorem log_prob_sums_sliced_log_densities (fs : List Factor) (d : Factorised)
    (v : List ℚ) (r : ℕ → ℚ)
    (hinit : Factorised.init fs = .ok d)
    (_hv : v.length = d.ndims.sum)
    (hall : ∀ i, i < d.factors.length →
      (d.factors.getD i default).logProb (sliceAt v d.ndims i) = some (r i)) :
    d.log_prob v = some (((List.range d.factors.length).map r).sum) := by
  have hlen : d.factors.length = d.ndims.length := by
    obtain ⟨hf, hnd, _⟩ := init_ok fs d hinit
    rw [hf, hnd, List.length_map]
  have hlen2 : d.factors.length = (iterateParts v d.ndims).length := by
    rw [length_iterateParts]; exact hlen
  rw [Factorised.log_prob, Factorised.partition_dimensions,
    zip_map_pair_eq_range (fun p => p.1.logProb p.2) default [] _ _ hlen2]
  have heq : (List.range d.factors.length).map
        (fun i => (d.factors.getD i default).logProb
          ((iterateParts v d.ndims).getD i [])) =
      ((List.range d.factors.length).map r).map some := by
    rw [List.map_map]
    apply List.map_congr_left
    intro i hi
    rw [List.mem_range] at hi
    rw [getD_iterateParts v d.ndims i (hlen ▸ hi)]
    exact hall i hi
  rw [heq, sumOptions_map_some]

theorem log_prob_sums_sliced_log_densities_witness :
    dEx.log_prob [0, 0, 0, 0, 0, 0, 0] =
      some (((List.range dEx.factors.length).map (fun _ => (0 : ℚ))).sum) :=
  log_prob_sums_sliced_log_densities [mkFactor [5] 3, mkFactor [5] 4] dEx
    [0, 0, 0, 0, 0, 0, 0] (fun _ => 0) rfl (by decide) (by decide)

/-- C4: for a Factorised distribution and a candidate value of the correct
trailing width, the support membership check returns true exactly when every
factor's own support check passes on its contiguous slice of the value, the
slices being taken by the same prefix-splitting rule as `log_prob`. -/
theorem support_check_iff_all_factors (fs : List Factor) (d : Factorised)
    (v : List ℚ)
    (hinit : Factorised.init fs = .ok d)
    (_hv : v.length = d.ndims.sum) :
    (d.support.check v = some true ↔
      ∀ i, i < d.factors.length →
        (d.factors.getD i default).supportCheck (sliceAt v d.ndims i) = some true) := by
  have hlen : d.factors.length = d.ndims.length := by
    obtain ⟨hf, hnd, _⟩ := init_ok fs d hinit
    rw [hf, hnd, List.length_map]
  have hlen2 : d.factors.length = (iterateParts v d.ndims).length := by
    rw [length_iterateParts]; exact hlen
  have hzip : (d.factors.map Factor.supportCheck).zip (iterateParts v d.ndims) =
      (d.factors.zip (iterateParts v d.ndims)).map
        (Prod.map Factor.supportCheck id) := by
    rw [List.zip_map_left]
  rw [Factorised.support, FactorisedSupport.check]
  simp only [hzip, List.map_map]
  have hcomp : ((fun p : (List ℚ → Option Bool) × List ℚ => p.1 p.2) ∘
      Prod.map Factor.supportCheck id) =
      fun p : Factor × List ℚ => p.1.supportCheck p.2 := by
    funext p
    rfl
  rw [hcomp, zip_map_pair_eq_range (fun p => p.1.supportCheck p.2) default [] _ _ hlen2]
  have heq : (List.range d.factors.length).map
        (fun i => (d.factors.getD i default).supportCheck
          ((iterateParts v d.ndims).getD i [])) =
      (List.range d.factors.length).map
        (fun i => (d.factors.getD i default).supportCheck (sliceAt v d.ndims i)) := by
    apply List.map_congr_left
    intro i hi
    rw [List.mem_range] at hi
    rw [getD_iterateParts v d.ndims i (hlen ▸ hi)]
  rw [heq, allChecks_eq_some_true_iff]
  constructor
  · intro h i hi
    exact h _ (List.mem_map.mpr ⟨i, List.mem_range.mpr hi, rfl⟩)
  · intro h o ho
    obtain ⟨i, hi, rfl⟩ := List.mem_map.mp ho
    rw [List.mem_range] at hi
    exact h i hi

theorem support_check_iff_all_factors_witness :
    (dEx.support.check [0, 0, 0, 0, 0, 0, 0] = some true ↔
      ∀ i, i < dEx.factors.length →
        (dEx.factors.getD i default).supportCheck
          (sliceAt [0, 0, 0, 0, 0, 0, 0] dEx.ndims i) = some true) :=
  support_check_iff_all_factors [mkFactor [5] 3, mkFactor [5] 4] dEx
    [0, 0, 0, 0, 0, 0, 0] rfl (by decide)

/-- C5: for factor sequences of equal length whose pairs are all compatible
(the per-pair divergence dispatch succeeds on each), the registered divergence
computation returns the sum over indices of the pairwise divergences. -/
theorem kl_factorised_sums_pairwise (kl : Factor → Factor → Option ℚ)
    (p q : Factorised) (r : ℕ → ℚ)
    (hlen : p.factors.length = q.factors.length)
    (hall : ∀ i, i < p.factors.length →
      kl (p.factors.getD i default) (q.factors.getD i default) = some (r i)) :
    kl_factorised_factorised kl p q =
      some (((List.range p.factors.length).map r).sum) := by
  have hlen2 : p.factors.length = q.factors.length := hlen
  rw [kl_factorised_factorised,
    zip_map_pair_eq_range (fun pq => kl pq.1 pq.2) default default _ _ hlen2]
  have heq : (List.range p.factors.length).map
        (fun i => kl (p.factors.getD i default) (q.factors.getD i default)) =
      ((List.range p.factors.length).map r).map some := by
    rw [List.map_map]
    apply List.map_congr_left
    intro i hi
    rw [List.mem_range] at hi
    exact hall i hi
  rw [heq, sumOptions_map_some]

theorem kl_factorised_sums_pairwise_witness :
    kl_factorised_factorised klOne dEx dEx =
      some (((List.range dEx.factors.length).map (fun _ => (1 : ℚ))).sum) :=
  kl_factorised_sums_pairwise klOne dEx dEx (fun _ => 1) rfl (by decide)

/-- C6 counterexample: two constructor-accepted Factorised instances with
mismatched factor-sequence lengths (one versus two factors) on which the
registered divergence computation silently returns a partial result (the sum
over the zipped common prefix) instead of failing. -/
theorem kl_length_mismatch_counterexample :
    Factorised.init [mkFactor [5] 3] = .ok dEx1 ∧
    Factorised.init [mkFactor [5] 3, mkFactor [5] 4] = .ok dEx ∧
    dEx1.factors.length ≠ dEx.factors.length ∧
    kl_factorised_factorised klOne dEx1 dEx = some 1 :=
  ⟨rfl, rfl, by decide, by
    simp [kl_factorised_factorised, klOne, dEx1, dEx, sumOptions]⟩

/-- C6 amended: when some index inside the zipped common prefix pairs two
factors on which the per-pair divergence dispatch raises, the error propagates
and no partial result is returned; a pure length mismatch, by contrast, is
silently truncated by the pairing (see the counterexample). -/
theorem kl_incompatible_pair_propagates (kl : Factor → Factor → Option ℚ)
    (p q : Factorised) (i : ℕ)
    (hip : i < p.factors.length) (hiq : i < q.factors.length)
    (hnone : kl (p.factors.getD i default) (q.factors.getD i default) = none) :
    kl_factorised_factorised kl p q = none := by
  rw [kl_factorised_factorised]
  apply (sumOptions_eq_none_iff _).mpr
  have hi : i < (p.factors.zip q.factors).length := by
    rw [List.length_zip]
    omega
  have hpair : (p.factors.zip q.factors).getD i (default, default) =
      (p.factors.getD i default, q.factors.getD i default) := by
    rw [List.getD_eq_getElem _ _ hi, List.getElem_zip,
      List.getD_eq_getElem _ _ hip, List.getD_eq_getElem _ _ hiq]
  have hmem : (p.factors.getD i default, q.factors.getD i default) ∈
      p.factors.zip q.factors := by
    rw [← hpair, List.getD_eq_getElem _ _ hi]
    exact List.getElem_mem _
  refine List.mem_map.mpr ⟨(p.factors.getD i default, q.factors.getD i default),
    hmem, hnone⟩

theorem kl_incompatible_pair_propagates_witness :
    kl_factorised_factorised klRaise dEx1 dEx1 = none :=
  kl_incompatible_pair_propagates klRaise dEx1 dEx1 0 (by decide) (by decide) rfl

/-- C7 counterexample: a constructor-accepted Factorised instance of summed
event width 2 evaluated on a value of trailing width 3: both the log-density
and the support check return results (the extra trailing element is silently
ignored by the clamped slicing) instead of failing. -/
theorem log_prob_overwide_counterexample :
    Factorised.init [mkFactor [] 1, mkFactor [] 1] = .ok dEx7 ∧
    ([0, 0, 0] : List ℚ).length ≠ dEx7.ndims.sum ∧
    dEx7.log_prob [0, 0, 0] = some 0 ∧
    dEx7.support.check [0, 0, 0] = some true :=
  ⟨rfl, by decide, by
    simp [Factorised.log_prob, Factorised.partition_dimensions, dEx7, mkFactor,
      iterateParts, sumOptions], by decide⟩

/-- C7 amended: with factors whose own operations accept exactly slices of
their declared width, evaluating the log-density or the support check fails
precisely when the value's trailing width is smaller than the summed event
width (the failure propagating from the factor that receives a short slice);
on a trailing width greater than or equal to the summed width every factor
receives a full-width slice and a result is returned, extra trailing elements
being silently ignored. -/
theorem log_prob_support_width_behaviour (fs : List Factor) (d : Factorised)
    (v : List ℚ)
    (hinit : Factorised.init fs = .ok d)
    (hlogp : ∀ i, i < d.factors.length → ∀ xs : List ℚ,
      ((d.factors.getD i default).logProb xs).isSome ↔
        xs.length = d.ndims.getD i 0)
    (hchk : ∀ i, i < d.factors.length → ∀ xs : List ℚ,
      (d.factors.getD i default).supportCheck xs =
        if xs.length = d.ndims.getD i 0 then some true else none) :
    ((d.log_prob v).isSome ↔ d.ndims.sum ≤ v.length) ∧
    (d.support.check v = some true ↔ d.ndims.sum ≤ v.length) := by
  have hlen : d.factors.length = d.ndims.length := by
    obtain ⟨hf, hnd, _⟩ := init_ok fs d hinit
    rw [hf, hnd, List.length_map]
  have hlen2 : d.factors.length = (iterateParts v d.ndims).length := by
    rw [length_iterateParts]
    exact hlen
  constructor
  · rw [Factorised.log_prob, Factorised.partition_dimensions,
      zip_map_pair_eq_range (fun p => p.1.logProb p.2) default [] _ _ hlen2,
      sumOptions_isSome_iff, ← sliceAt_full_iff v d.ndims]
    constructor
    · intro h i hi
      have hif : i < d.factors.length := hlen ▸ hi
      have h2 := h _ (List.mem_map.mpr ⟨i, List.mem_range.mpr hif, rfl⟩)
      rw [getD_iterateParts v d.ndims i hi] at h2
      exact (hlogp i hif _).mp h2
    · intro h o ho
      obtain ⟨i, hi, rfl⟩ := List.mem_map.mp ho
      rw [List.mem_range] at hi
      show ((d.factors.getD i default).logProb
        ((iterateParts v d.ndims).getD i [])).isSome
      rw [getD_iterateParts v d.ndims i (hlen ▸ hi)]
      exact (hlogp i hi _).mpr (h i (hlen ▸ hi))
  · have hzip : (d.factors.map Factor.supportCheck).zip (iterateParts v d.ndims) =
        (d.factors.zip (iterateParts v d.ndims)).map
          (Prod.map Factor.supportCheck id) := by
      rw [List.zip_map_left]
    have hcomp : ((fun p : (List ℚ → Option Bool) × List ℚ => p.1 p.2) ∘
        Prod.map Factor.supportCheck id) =
        fun p : Factor × List ℚ => p.1.supportCheck p.2 := by
      funext p
      rfl
    rw [Factorised.support, FactorisedSupport.check]
    simp only [hzip, List.map_map]
    rw [hcomp,
      zip_map_pair_eq_range (fun p => p.1.supportCheck p.2) default [] _ _ hlen2,
      allChecks_eq_some_true_iff, ← sliceAt_full_iff v d.ndims]
    constructor
    · intro h i hi
      have hif : i < d.factors.length := hlen ▸ hi
      have h2 := h _ (List.mem_map.mpr ⟨i, List.mem_range.mpr hif, rfl⟩)
      rw [getD_iterateParts v d.ndims i hi] at h2
      rw [hchk i hif] at h2
      by_contra hne
      rw [if_neg hne] at h2
      exact Option.noConfusion h2
    · intro h o ho
      obtain ⟨i, hi, rfl⟩ := List.mem_map.mp ho
      rw [List.mem_range] at hi
      show (d.factors.getD i default).supportCheck
        ((iterateParts v d.ndims).getD i []) = some true
      rw [getD_iterateParts v d.ndims i (hlen ▸ hi), hchk i hi,
        if_pos (h i (hlen ▸ hi))]

theorem log_prob_support_width_behaviour_witness :
    ((dEx7.log_prob [0, 0, 0]).isSome ↔
      dEx7.ndims.sum ≤ ([0, 0, 0] : List ℚ).length) ∧
    (dEx7.support.check [0, 0, 0] = some true ↔
      dEx7.ndims.sum ≤ ([0, 0, 0] : List ℚ).length) :=
  log_prob_support_width_behaviour [mkFactor [] 1, mkFactor [] 1] dEx7 [0, 0, 0]
    rfl
    (by
      intro i hi xs
      have h3 : i < 2 := hi
      have h2 : i = 0 ∨ i = 1 := by omega
      rcases h2 with h | h <;> subst h <;>
        exact mkFactor_logProb_isSome [] 1 xs)
    (by
      intro i hi xs
      have h3 : i < 2 := hi
      have h2 : i = 0 ∨ i = 1 := by omega
      rcases h2 with h | h <;> subst h <;> rfl)

/-- C8: for a constructor-accepted Factorised distribution whose factors
return correctly shaped samples, reparameterised sampling draws one sample per
factor and concatenates them along the trailing event axis in factor order,
each factor keeping its own width, so the result has shape
`sample_shape ++ batch_shape ++ event_shape`. -/
theorem rsample_concatenates_with_event_shape (fs : List Factor) (d : Factorised)
    (S : List ℕ)
    (hinit : Factorised.init fs = .ok d)
    (hshape : ∀ f ∈ fs, (f.rsample S).shape =
      S ++ d.batch_shape ++ [f.event_shape.headD 0]) :
    ∃ t, d.rsample S = some t ∧ t.shape = S ++ d.batch_shape ++ d.event_shape := by
  obtain ⟨hf, _, hev, hne, _⟩ := init_ok fs d hinit
  obtain ⟨f0, rest, rfl⟩ := List.exists_cons_of_ne_nil hne
  rw [Factorised.rsample, hf, List.map_cons]
  have ht0 : (f0.rsample S).shape =
      S ++ d.batch_shape ++ [f0.event_shape.headD 0] :=
    hshape f0 (List.mem_cons_self _ _)
  have hcond : ((!(f0.rsample S).shape.isEmpty) &&
      (rest.map (fun f => f.rsample S)).all
        (fun t => !t.shape.isEmpty &&
          t.shape.dropLast == (f0.rsample S).shape.dropLast)) = true := by
    rw [Bool.and_eq_true]
    constructor
    · rw [ht0]
      simp
    · rw [List.all_eq_true]
      intro t ht
      obtain ⟨f, hfmem, rfl⟩ := List.mem_map.mp ht
      rw [Bool.and_eq_true]
      constructor
      · rw [hshape f (List.mem_cons_of_mem _ hfmem)]
        simp
      · rw [hshape f (List.mem_cons_of_mem _ hfmem), ht0,
          List.dropLast_concat, List.dropLast_concat]
        simp
  rw [catLastDim, if_pos hcond]
  refine ⟨_, rfl, ?_⟩
  have hlead : (f0.rsample S).shape.dropLast = S ++ d.batch_shape := by
    rw [ht0, List.dropLast_concat]
  have hsum : (((f0 :: rest).map (fun f => f.rsample S)).map
      (fun t => lastDim t.shape)).sum =
      ((f0 :: rest).map (fun f => f.event_shape.headD 0)).sum := by
    rw [List.map_map]
    congr 1
    apply List.map_congr_left
    intro f hfmem
    show lastDim (f.rsample S).shape = f.event_shape.headD 0
    rw [hshape f hfmem, lastDim, List.getLast?_concat]
    rfl
  rw [hlead]
  rw [List.map_cons] at hsum
  rw [hsum, hev]

theorem rsample_concatenates_with_event_shape_witness :
    ∃ t, dEx.rsample [2] = some t ∧
      t.shape = [2] ++ dEx.batch_shape ++ dEx.event_shape :=
  rsample_concatenates_with_event_shape [mkFactor [5] 3, mkFactor [5] 4] dEx [2]
    rfl (by decide)

/-- C9: for a constructor-accepted Factorised distribution and a non-empty
sequence of in-range factor indices (which may reorder, subset, or repeat),
`marginal` returns a new Factorised distribution whose factor sequence is
exactly the selected factors in the given index order, with the corresponding
cached widths; in this pure embedding the original instance is a value, so it
is unchanged by construction. -/
theorem marginal_selects_factors (fs : List Factor) (d : Factorised)
    (idxs : List ℕ)
    (hinit : Factorised.init fs = .ok d)
    (hrange : ∀ i ∈ idxs, i < d.factors.length)
    (hne : idxs ≠ []) :
    ∃ d2, d.marginal idxs = .ok d2 ∧
      d2.factors = idxs.map (fun i => d.factors.getD i default) ∧
      d2.ndims = idxs.map (fun i => d.ndims.getD i 0) := by
  obtain ⟨hf, hnd, _, _, hev⟩ := init_ok fs d hinit
  have hsel := mapM_get_some d.factors idxs hrange
  rw [Factorised.marginal, hsel]
  have hselne : idxs.map (fun i => d.factors.getD i default) ≠ [] := by
    intro h
    exact hne (List.map_eq_nil_iff.mp h)
  have hselev : ∀ f ∈ idxs.map (fun i => d.factors.getD i default),
      f.event_shape ≠ [] := by
    intro f hfmem
    obtain ⟨i, hi, rfl⟩ := List.mem_map.mp hfmem
    have hil : i < d.factors.length := hrange i hi
    rw [List.getD_eq_getElem _ _ hil]
    exact hev _ (hf ▸ List.getElem_mem hil)
  refine ⟨_, init_ok_of _ hselne hselev, rfl, ?_⟩
  show (idxs.map (fun i => d.factors.getD i default)).map
      (fun f => if f.event_shape.length > 0 then f.event_shape.headD 0 else 1) =
    idxs.map (fun i => d.ndims.getD i 0)
  rw [List.map_map]
  apply List.map_congr_left
  intro i hi
  have hil : i < d.factors.length := hrange i hi
  show (fun f => if f.event_shape.length > 0 then f.event_shape.headD 0 else 1)
      (d.factors.getD i default) = d.ndims.getD i 0
  rw [hnd, ← hf, getD_map_of_lt _ d.factors i hil 0 default]

theorem marginal_selects_factors_witness :
    ∃ d2, dEx.marginal [1, 0, 1] = .ok d2 ∧
      d2.factors = [1, 0, 1].map (fun i => dEx.factors.getD i default) ∧
      d2.ndims = [1, 0, 1].map (fun i => dEx.ndims.getD i 0) :=
  marginal_selects_factors [mkFactor [5] 3, mkFactor [5] 4] dEx [1, 0, 1]
    rfl (by decide) (by decide)

/-- C10: constructing a Factorised distribution from the empty factor sequence
fails with the IndexError raised when reading the first factor's batch shape
(`factors[0].batch_shape`), rather than returning a degenerate distribution;
consequently `marginal` applied to an empty index sequence also fails in the
same way, for every Factorised instance. -/
theorem empty_factor_sequence_fails :
    Factorised.init ([] : List Factor) = .error .emptyFactors ∧
    ∀ d : Factorised, d.marginal [] = .error .emptyFactors :=
  ⟨rfl, fun _ => rfl⟩
